import Mathlib

/-!
Verification of the line-geometry-tool repository.

Shallow embedding of the pure computational kernels of
`vector_master.py`, `line_master.py`, `triangle_height.py` and
`calculus/limit_builder.py`.

Modelling conventions:
* Python floats are modelled exactly: by `ℚ` where the source only uses
  field operations and comparisons, and by `ℝ` where the source calls
  `math.sqrt`, `math.cos`, `math.sin`, `math.atan2`, `math.acos`.
* A comparison `magnitude(v) < eps` (with `magnitude(v) = sqrt (sumSq v)`)
  is modelled in the `ℚ` slice by the equivalent `sumSq v < eps ^ 2`
  (square root is strictly monotone on nonnegatives).
* A raised `ValueError` is modelled by `Option.none`.
-/

namespace LineGeo

/-- `1e-10`: the zero-vector threshold used throughout `vector_master.py`
and `triangle_height.py`. -/
def EPS10 : ℚ := 1 / 10 ^ 10

/-- `1e-6`: the ratio tolerance in `linear_dependence` (vector_master.py:128). -/
def EPS6 : ℚ := 1 / 10 ^ 6

/-- `1e-9`: the vertical-slope threshold in `line_master.py:44`. -/
def EPS9 : ℚ := 1 / 10 ^ 9

/-- Sum of squared components of a vector; `magnitude(v)` of
vector_master.py:38-40 is `sqrt (sumSq v)`. -/
def sumSq (v : List ℚ) : ℚ := (v.map fun x => x * x).sum

/-- `dot` of vector_master.py:42-44:
`sum(a*b for a, b in zip(u, v))`; Python `zip` truncates to the
shorter argument. -/
def dot (u v : List ℚ) : ℚ := ((u.zip v).map fun p => p.1 * p.2).sum

/-- The loop of `linear_dependence` (vector_master.py:120-130) over the
components with index `i ≥ 1`, paired as `(u[i], v[i])`, carrying the
current reference ratio (`None` until first set). -/
def depLoop : Option ℚ → List (ℚ × ℚ) → Bool
  | _, [] => true
  | ratio, (ui, vi) :: rest =>
    if |vi| < EPS10 then
      if |ui| > EPS10 then false else depLoop ratio rest
    else
      match ratio with
      | none => depLoop (some (ui / vi)) rest
      | some rat => if |ui / vi - rat| > EPS6 then false else depLoop (some rat) rest

/-- `linear_dependence([u, v])` (vector_master.py:113-130), the
two-vector branch.  `magnitude(w) < 1e-10` is modelled as
`sumSq w < EPS10 ^ 2`.  The seed ratio is `u[0]/v[0]` when
`|v[0]| > 1e-10`, else `None`; the loop then runs over indices `1..`.
Equal dimensions are assumed (the Python loop indexes `v` by the
indices of `u`). -/
def linear_dependence_pair (u v : List ℚ) : Bool :=
  if sumSq u < EPS10 ^ 2 ∨ sumSq v < EPS10 ^ 2 then true
  else
    depLoop
      (if |v.headD 0| > EPS10 then some (u.headD 0 / v.headD 0) else none)
      (u.tail.zip v.tail)

/-- The dependence criterion exactly as the claim states it: the pair is
dependent iff one vector is a (near-)zero vector, or no (near-)zero
component of one vector is paired with a non-zero component of the
other and all component-wise ratios (taken where the divisor component
is non-negligible) agree within `1e-6`. -/
def claimDependent (u v : List ℚ) : Prop :=
  sumSq u < EPS10 ^ 2 ∨ sumSq v < EPS10 ^ 2 ∨
  ((∀ i < u.length,
      (|v.getD i 0| < EPS10 → |u.getD i 0| ≤ EPS10) ∧
      (|u.getD i 0| < EPS10 → |v.getD i 0| ≤ EPS10)) ∧
   (∀ i < u.length, ∀ j < u.length,
      EPS10 < |v.getD i 0| → EPS10 < |v.getD j 0| →
      |u.getD i 0 / v.getD i 0 - u.getD j 0 / v.getD j 0| ≤ EPS6))

instance (u v : List ℚ) : Decidable (claimDependent u v) := by
  unfold claimDependent; infer_instance

/-- The ratios the code actually computes in the loop: one per pair
whose divisor component is not below `1e-10`, in order. -/
def checkedRatios : List (ℚ × ℚ) → List ℚ
  | [] => []
  | (ui, vi) :: rest =>
    if |vi| < EPS10 then checkedRatios rest else ui / vi :: checkedRatios rest

/-- All ratios `linear_dependence` computes, in order: the seed from
index 0 (only when `|v[0]| > 1e-10`), then the checked ratios of the
remaining components. -/
def ratioList (u v : List ℚ) : List ℚ :=
  (if |v.headD 0| > EPS10 then [u.headD 0 / v.headD 0] else []) ++
    checkedRatios (u.tail.zip v.tail)

/-- The dependence criterion the code actually implements (the claim's
criterion amended at index 0): zero-paired-with-nonzero is only tested
for components after the first, and every computed ratio must agree
with the first computed ratio within `1e-6`. -/
def amendedDependent (u v : List ℚ) : Prop :=
  sumSq u < EPS10 ^ 2 ∨ sumSq v < EPS10 ^ 2 ∨
  ((∀ p ∈ u.tail.zip v.tail, |p.2| < EPS10 → |p.1| ≤ EPS10) ∧
   ∀ r ∈ (ratioList u v).tail, |r - (ratioList u v).headD 0| ≤ EPS6)

instance (u v : List ℚ) : Decidable (amendedDependent u v) := by
  unfold amendedDependent; infer_instance

/-! ### line_master.py — slope slice (lines 43-51, 84-90)

The slope computation uses only field operations on `A`, `B`, `C`, so it
is modelled over `ℚ`.  Python's `float('inf')` is itself a float value;
the type `PyFloat` models the values the `slope` entry of the returned
dict can take. -/

/-- A Python float as stored in the `slope` field: either an ordinary
number or the value `float('inf')`. -/
inductive PyFloat where
  | num (q : ℚ)
  | inf
  deriving DecidableEq

/-- line_master.py:44-49: `m = -A / B if abs(B) > 1e-9 else float('inf')`. -/
def lineSlope (A B : ℚ) : PyFloat :=
  if |B| > EPS9 then .num (-A / B) else .inf

/-- What `print_properties` (line_master.py:84-90) prints for the slope. -/
inductive SlopeReport where
  | vertical
  | horizontal
  | slopeVal (m : ℚ)
  deriving DecidableEq

/-- line_master.py:84-90: `if props['slope'] == float('inf')` print
"Vertical line", `elif props['slope'] == 0` print "Horizontal line",
else print the numeric slope. -/
def printSlope : PyFloat → SlopeReport
  | .inf => .vertical
  | .num m => if m = 0 then .horizontal else .slopeVal m

/-! ### calculus/limit_builder.py — sampling loop (lines 35-52, 110-130)

The user expression is abstracted as a function `f : ℚ → EvalOutcome`
giving, for each sample point, what Python's `eval` does there. -/

/-- Outcome of evaluating the user expression at one point:
a finite value, a non-finite float (`nan`/`inf`), or a raised
exception. -/
inductive EvalOutcome where
  | val (q : ℚ)
  | nonfinite
  | raises
  deriving DecidableEq

/-- `safe_eval` (limit_builder.py:35-52): returns the evaluated value,
and `float('nan')` (a non-finite float) when evaluation raises. -/
def safe_eval (f : ℚ → EvalOutcome) (x : ℚ) : EvalOutcome :=
  match f x with
  | .raises => .nonfinite
  | r => r

/-- One line of the program's output: a table row (with `none` standing
for the printed word "undefined"), or the hard-coded closing analysis
line claiming a limit value. -/
inductive OutItem where
  | sample (x : ℚ) (fx : Option ℚ)
  | limitClaim (v : ℚ)
  deriving DecidableEq

/-- limit_builder.py:110-113: the offset list `hs` (the two branches
hold the same five numbers). -/
def hsList (a : ℚ) : List ℚ :=
  if a = 0 then [1, 1 / 10, 1 / 100, 1 / 1000, 1 / 10000]
  else [1, 1 / 10, 1 / 100, 1 / 1000, 1 / 10000]

/-- limit_builder.py:115-123: for each `h` and each `side in [-1, 1]`,
evaluate at `x = a + side * h` and print the value if finite, else
"undefined". -/
def builder_table (f : ℚ → EvalOutcome) (a : ℚ) : List OutItem :=
  (hsList a).flatMap fun h =>
    [(-1 : ℚ), 1].map fun side =>
      let x := a + side * h
      match safe_eval f x with
      | .val q => .sample x (some q)
      | _ => .sample x none

/-- limit_builder.py:105-130: the table, followed — whenever `a == 0`,
for any input function — by the hard-coded "Analysis" block whose last
line is `So limit = 0/6 = 0`. -/
def builder_output (f : ℚ → EvalOutcome) (a : ℚ) : List OutItem :=
  builder_table f a ++ if a = 0 then [.limitClaim 0] else []

/-- A demonstration input for the sampler: evaluation raises at `x = 0`
(division by zero, say) and yields the finite value `x` elsewhere. -/
def fDemo (x : ℚ) : EvalOutcome := if x = 0 then .raises else .val x

/-! ### Real-valued parts

The functions below call `math.sqrt` / trigonometric functions, so they
are modelled over `ℝ` (noncomputable in Lean, exact in value). -/

open scoped Classical

/-- `1e-10` as a real number. -/
noncomputable def EPS10R : ℝ := 1 / 10 ^ 10

/-- `1e-9` as a real number (tolerance of the spec's
`magnitude(unit(v)) ≈ 1` property). -/
noncomputable def EPS9R : ℝ := 1 / 10 ^ 9

/-- `math.radians` (deg2rad, line_master.py:13). -/
noncomputable def deg2rad (d : ℝ) : ℝ := d * Real.pi / 180

/-- `math.degrees` (rad2deg, line_master.py:14). -/
noncomputable def rad2deg (r : ℝ) : ℝ := r * 180 / Real.pi

namespace VR

/-- Sum of squared components (real slice). -/
def sumSq (v : List ℝ) : ℝ := (v.map fun x => x * x).sum

/-- `magnitude` (vector_master.py:38-40): `sqrt(sum(x*x for x in v))`. -/
noncomputable def magnitude (v : List ℝ) : ℝ := Real.sqrt (sumSq v)

/-- `dot` (vector_master.py:42-44), real slice. -/
def dot (u v : List ℝ) : ℝ := ((u.zip v).map fun p => p.1 * p.2).sum

/-- `unit` (vector_master.py:65-70): raises (`none`) when
`magnitude(v) < 1e-10`, else returns `[x/m for x in v]`. -/
noncomputable def unit (v : List ℝ) : Option (List ℝ) :=
  if magnitude v < EPS10R then none
  else some (v.map fun x => x / magnitude v)

/-- `angle` (vector_master.py:72-79): raises (`none`) when either
magnitude is `< 1e-10`, else
`degrees(acos(max(-1, min(1, dot/(mu*mv)))))`. -/
noncomputable def angle (u v : List ℝ) : Option ℝ :=
  if magnitude u < EPS10R ∨ magnitude v < EPS10R then none
  else some (rad2deg (Real.arccos
    (max (-1) (min 1 (dot u v / (magnitude u * magnitude v))))))

end VR

namespace LM

/-- `math.atan2(y, x)`, the angle of the point `(x, y)` in `(-π, π]`,
which is exactly `Complex.arg (x + y i)`. -/
noncomputable def atan2 (y x : ℝ) : ℝ := Complex.arg (x + y * Complex.I)

/-- `normalize_angle` (line_master.py:16-18):
`((deg + 180) % 360) - 180`, with Python float `%` for a positive
modulus being `a - 360 * floor(a / 360)`. -/
noncomputable def normalize_angle (deg : ℝ) : ℝ :=
  (deg + 180) - 360 * (Int.floor ((deg + 180) / 360) : ℝ) - 180

/-- The normal angle computed by `line_from_general`
(line_master.py:29-38): normalize `(A,B)` by `hypot(A,B) = √(A²+B²)`,
then `normalize_angle(degrees(atan2(B_n, A_n)))`. -/
noncomputable def alphaNormalDeg (A B : ℝ) : ℝ :=
  normalize_angle (rad2deg (atan2 (B / Real.sqrt (A ^ 2 + B ^ 2))
    (A / Real.sqrt (A ^ 2 + B ^ 2))))

/-- The line direction angle (line_master.py:40-41):
`normalize_angle(alpha_normal + 90)`. -/
noncomputable def alphaLineDeg (A B : ℝ) : ℝ :=
  normalize_angle (alphaNormalDeg A B + 90)

/-- The distance from the origin computed by `line_from_general`
(line_master.py:29-34): `p = |p_signed|` with `p_signed = -C/√(A²+B²)`. -/
noncomputable def distance_from_origin (A B C : ℝ) : ℝ :=
  |-(C / Real.sqrt (A ^ 2 + B ^ 2))|

/-- `case_normal_form` (line_master.py:141-150): raises (`none`) when
`p < 0`, else returns `(cos α, sin α, -p)` with `α` in degrees. -/
noncomputable def case_normal_form (p alpha : ℝ) : Option (ℝ × ℝ × ℝ) :=
  if p < 0 then none
  else some (Real.cos (deg2rad alpha), Real.sin (deg2rad alpha), -p)

end LM

namespace TH

/-- `distance` (triangle_height.py:21-23). -/
noncomputable def distance (p1 p2 : ℝ × ℝ) : ℝ :=
  Real.sqrt ((p2.1 - p1.1) ^ 2 + (p2.2 - p1.2) ^ 2)

/-- `vector` (triangle_height.py:25-27). -/
def vector (p1 p2 : ℝ × ℝ) : ℝ × ℝ := (p2.1 - p1.1, p2.2 - p1.2)

/-- `cross_product` (triangle_height.py:29-31), the scalar 2D cross. -/
def cross_product (v1 v2 : ℝ × ℝ) : ℝ := v1.1 * v2.2 - v1.2 * v2.1

/-- `dot_product` (triangle_height.py:33-35). -/
def dot_product (v1 v2 : ℝ × ℝ) : ℝ := v1.1 * v2.1 + v1.2 * v2.2

/-- `point_on_line` (triangle_height.py:37-39). -/
def point_on_line (A B : ℝ × ℝ) (t : ℝ) : ℝ × ℝ :=
  (A.1 + t * (B.1 - A.1), A.2 + t * (B.2 - A.2))

/-- `height_from_C_to_AB` (triangle_height.py:41-73): raises (`none`)
when `distance(A,B) < 1e-10`; otherwise returns the height
`|AB × AC| / |AB|` and the foot `H = A + t·AB` with
`t = (AC·AB)/|AB|²`. -/
noncomputable def height_from_C_to_AB (A B C : ℝ × ℝ) :
    Option (ℝ × (ℝ × ℝ)) :=
  let AB := vector A B
  let AC := vector A C
  let cross_mag := |cross_product AB AC|
  let AB_length := distance A B
  if AB_length < EPS10R then none
  else
    let height := cross_mag / AB_length
    let ABsq := AB.1 ^ 2 + AB.2 ^ 2
    let t := dot_product AC AB / ABsq
    some (height, point_on_line A B t)

end TH

/-! ## Theorems -/

/-! ### C1 — linear_dependence on a pair of vectors -/

theorem depLoop_some_eq_true (ps : List (ℚ × ℚ)) (rat : ℚ) :
    depLoop (some rat) ps = true ↔
      ((∀ p ∈ ps, |p.2| < EPS10 → |p.1| ≤ EPS10) ∧
       ∀ r ∈ checkedRatios ps, |r - rat| ≤ EPS6) := by
  induction ps with
  | nil => simp [depLoop, checkedRatios]
  | cons p rest ih =>
    obtain ⟨ui, vi⟩ := p
    by_cases hv : |vi| < EPS10
    · by_cases hu : |ui| > EPS10
      · simp only [depLoop, if_pos hv, if_pos hu, Bool.false_eq_true, false_iff,
          not_and, not_forall]
        intro hz
        exact absurd (hz (ui, vi) (List.mem_cons_self _ _) hv) (not_le.mpr hu)
      · simp only [depLoop, if_pos hv, if_neg hu]
        rw [ih]
        simp only [checkedRatios, if_pos hv]
        constructor
        · rintro ⟨hz, hr⟩
          refine ⟨?_, hr⟩
          intro q hq hqv
          rcases List.mem_cons.mp hq with h | h
          · rw [h]; exact not_lt.mp hu
          · exact hz q h hqv
        · rintro ⟨hz, hr⟩
          exact ⟨fun q hq hqv => hz q (List.mem_cons_of_mem _ hq) hqv, hr⟩
    · by_cases h6 : |ui / vi - rat| > EPS6
      · simp only [depLoop, if_neg hv, if_pos h6, Bool.false_eq_true, false_iff,
          not_and, not_forall]
        intro _
        refine ⟨ui / vi, ?_⟩
        simp only [checkedRatios, if_neg hv]
        exact ⟨List.mem_cons_self _ _, not_le.mpr h6⟩
      · simp only [depLoop, if_neg hv, if_neg h6]
        rw [ih]
        simp only [checkedRatios, if_neg hv]
        constructor
        · rintro ⟨hz, hr⟩
          refine ⟨fun q hq hqv => ?_, fun r hr2 => ?_⟩
          · rcases List.mem_cons.mp hq with h | h
            · rw [h] at hqv; exact absurd hqv hv
            · exact hz q h hqv
          · rcases List.mem_cons.mp hr2 with h | h
            · rw [h]; exact not_lt.mp h6
            · exact hr r h
        · rintro ⟨hz, hr⟩
          exact ⟨fun q hq hqv => hz q (List.mem_cons_of_mem _ hq) hqv,
            fun r hr2 => hr r (List.mem_cons_of_mem _ hr2)⟩

theorem depLoop_none_eq_true (ps : List (ℚ × ℚ)) :
    depLoop none ps = true ↔
      ((∀ p ∈ ps, |p.2| < EPS10 → |p.1| ≤ EPS10) ∧
       ∀ r ∈ (checkedRatios ps).tail, |r - (checkedRatios ps).headD 0| ≤ EPS6) := by
  induction ps with
  | nil => simp [depLoop, checkedRatios]
  | cons p rest ih =>
    obtain ⟨ui, vi⟩ := p
    by_cases hv : |vi| < EPS10
    · by_cases hu : |ui| > EPS10
      · simp only [depLoop, if_pos hv, if_pos hu, Bool.false_eq_true, false_iff,
          not_and, not_forall]
        intro hz
        exact absurd (hz (ui, vi) (List.mem_cons_self _ _) hv) (not_le.mpr hu)
      · simp only [depLoop, if_pos hv, if_neg hu]
        rw [ih]
        simp only [checkedRatios, if_pos hv]
        constructor
        · rintro ⟨hz, hr⟩
          refine ⟨?_, hr⟩
          intro q hq hqv
          rcases List.mem_cons.mp hq with h | h
          · rw [h]; exact not_lt.mp hu
          · exact hz q h hqv
        · rintro ⟨hz, hr⟩
          exact ⟨fun q hq hqv => hz q (List.mem_cons_of_mem _ hq) hqv, hr⟩
    · simp only [depLoop, if_neg hv]
      rw [depLoop_some_eq_true]
      simp only [checkedRatios, if_neg hv, List.tail_cons, List.headD_cons]
      constructor
      · rintro ⟨hz, hr⟩
        refine ⟨fun q hq hqv => ?_, hr⟩
        rcases List.mem_cons.mp hq with h | h
        · rw [h] at hqv; exact absurd hqv hv
        · exact hz q h hqv
      · rintro ⟨hz, hr⟩
        exact ⟨fun q hq hqv => hz q (List.mem_cons_of_mem _ hq) hqv, hr⟩

/-- C1 (counterexample): `linear_dependence([(1,2), (0,2)])` returns
`True`, yet the pair is not dependent in the claim's sense — the zero
component `v[0] = 0` is paired with the non-zero component `u[0] = 1`,
which the claim says must make the pair independent (indeed neither
vector is a scalar multiple of the other). -/
theorem c1_counterexample :
    linear_dependence_pair [1, 2] [0, 2] = true ∧
      ¬ claimDependent [1, 2] [0, 2] := by
  constructor
  · norm_num [linear_dependence_pair, depLoop, sumSq, EPS10, EPS6]
  · rintro (h | h | ⟨hz, -⟩)
    · norm_num [sumSq, EPS10] at h
    · norm_num [sumSq, EPS10] at h
    · have h0 := (hz 0 (by norm_num)).1 (by norm_num [EPS10])
      norm_num [EPS10] at h0

/-- C1 (amended): `linear_dependence` on a pair returns `True` iff one
of the vectors is (near-)zero, or else: for the components after the
first, a near-zero component of `v` forces the matching component of
`u` to be near-zero, and every computed component ratio — where the
ratio of the first components is computed only when `|v[0]| > 1e-10` —
agrees with the first computed ratio within `1e-6`.  The first
component is exempt from the zero-paired-with-non-zero test. -/
theorem c1_amended_characterization (u v : List ℚ) :
    linear_dependence_pair u v = true ↔ amendedDependent u v := by
  unfold linear_dependence_pair amendedDependent ratioList
  by_cases hm : sumSq u < EPS10 ^ 2 ∨ sumSq v < EPS10 ^ 2
  · rw [if_pos hm]
    exact iff_of_true rfl (hm.imp_right Or.inl)
  · rw [if_neg hm]
    rw [not_or] at hm
    by_cases hseed : |v.headD 0| > EPS10
    · rw [if_pos hseed, if_pos hseed, depLoop_some_eq_true,
        or_iff_right hm.1, or_iff_right hm.2]
      simp only [List.singleton_append, List.tail_cons, List.headD_cons]
    · rw [if_neg hseed, if_neg hseed, depLoop_none_eq_true,
        or_iff_right hm.1, or_iff_right hm.2]
      simp only [List.nil_append]

/-! ### C2 — vertical slope representation -/

/-- C2 (counterexample): for the vertical line `x + 0·y - 3 = 0`
(`|B| = 0`, below the epsilon) the slope stored by `line_from_general`
is `float('inf')` — the numeric floating-point infinity, modelled by
`PyFloat.inf` — not a non-numeric sentinel value. -/
theorem c2_counterexample : lineSlope 1 0 = PyFloat.inf := by
  rw [lineSlope, if_neg]
  norm_num [EPS9]

/-- C2 (amended): when `|B| ≤ 1e-9` the derived slope is stored as the
numeric `float('inf')`, and `print_properties` renders exactly that
value as the text "Vertical line" — so the printed report shows a
sentinel while the slope value itself is a floating-point infinity;
when `|B| > 1e-9` the slope equals `-A/B`. -/
theorem c2_amended_slope (A B : ℚ) :
    (|B| ≤ EPS9 → lineSlope A B = PyFloat.inf ∧
      printSlope (lineSlope A B) = SlopeReport.vertical) ∧
    (EPS9 < |B| → lineSlope A B = PyFloat.num (-A / B)) := by
  constructor
  · intro h
    rw [lineSlope, if_neg (not_lt.mpr h)]
    exact ⟨rfl, rfl⟩
  · intro h
    rw [lineSlope, if_pos h]

theorem c2_amended_slope_witness :
    lineSlope 1 0 = PyFloat.inf ∧
      printSlope (lineSlope 1 0) = SlopeReport.vertical ∧
      lineSlope 2 1 = PyFloat.num (-2) := by
  have h1 := (c2_amended_slope 1 0).1 (by norm_num [EPS9])
  have h2 := (c2_amended_slope 2 1).2 (by norm_num [EPS9])
  norm_num at h2
  exact ⟨h1.1, h1.2, h2⟩

/-! ### C4 — the sampler's output and the fabricated limit value -/

/-- C4 (counterexample): with target point `a = 0` the builder's output
contains the hard-coded analysis item claiming `limit = 0`, whatever
the input function is (here the constant function `1`); that item is
not a sample row. -/
theorem c4_counterexample :
    OutItem.limitClaim 0 ∈ builder_output (fun _ => .val 1) 0 ∧
      ∀ x fx, OutItem.limitClaim 0 ≠ OutItem.sample x fx := by
  constructor
  · simp [builder_output]
  · intro x fx h
    cases h

/-- C4 (amended): for every input function, the builder's output is
exactly the sample table when the target point is non-zero (every item
a sample row), and the sample table followed by the hard-coded item
claiming `limit = 0` when the target point is `0`. -/
theorem c4_amended_output (f : ℚ → EvalOutcome) (a : ℚ) :
    (a ≠ 0 → builder_output f a = builder_table f a ∧
      ∀ item ∈ builder_output f a, ∃ x fx, item = OutItem.sample x fx) ∧
    (a = 0 → builder_output f a = builder_table f a ++ [OutItem.limitClaim 0]) := by
  constructor
  · intro hne
    have e : builder_output f a = builder_table f a := by
      simp [builder_output, hne]
    refine ⟨e, ?_⟩
    rw [e]
    intro item hi
    rw [builder_table] at hi
    simp only [List.mem_flatMap, List.mem_map] at hi
    obtain ⟨h1, -, side, -, rfl⟩ := hi
    cases safe_eval f (a + side * h1) with
    | val q => exact ⟨_, _, rfl⟩
    | nonfinite => exact ⟨_, _, rfl⟩
    | raises => exact ⟨_, _, rfl⟩
  · intro h0
    simp [builder_output, h0]

theorem c4_amended_output_witness :
    builder_output (fun _ => EvalOutcome.val 1) 1 =
      builder_table (fun _ => EvalOutcome.val 1) 1 :=
  ((c4_amended_output (fun _ => .val 1) 1).1 (by norm_num)).1

/-! ### C5 — per-point failure isolation in the sampler -/

/-- C5: for every input function and target point, the builder reports
all ten sample points: a point at which evaluation raises or produces a
non-finite value is recorded as "undefined" (`none`), a point with a
finite value is recorded with that value, and no per-point failure
shortens the table (its length is 10 for every `f`, including one that
raises everywhere). -/
theorem c5_per_point_isolation (f : ℚ → EvalOutcome) (a : ℚ) :
    (builder_table f a).length = 10 ∧
    ∀ h ∈ hsList a, ∀ s ∈ [(-1 : ℚ), 1],
      ((f (a + s * h) = .raises ∨ f (a + s * h) = .nonfinite) →
        OutItem.sample (a + s * h) none ∈ builder_table f a) ∧
      (∀ q, f (a + s * h) = .val q →
        OutItem.sample (a + s * h) (some q) ∈ builder_table f a) := by
  constructor
  · have he : hsList a = [1, 1 / 10, 1 / 100, 1 / 1000, 1 / 10000] := by
      unfold hsList; split <;> rfl
    simp [builder_table, he]
  · intro h hh s hs
    constructor
    · intro hf
      refine List.mem_flatMap.mpr ⟨h, hh, List.mem_map.mpr ⟨s, hs, ?_⟩⟩
      have hse : safe_eval f (a + s * h) = .nonfinite := by
        rcases hf with hf | hf <;> simp [safe_eval, hf]
      simp [hse]
    · intro q hf
      refine List.mem_flatMap.mpr ⟨h, hh, List.mem_map.mpr ⟨s, hs, ?_⟩⟩
      have hse : safe_eval f (a + s * h) = .val q := by
        simp [safe_eval, hf]
      simp [hse]

theorem c5_per_point_isolation_witness :
    (builder_table fDemo 1).length = 10 ∧
      OutItem.sample 0 none ∈ builder_table fDemo 1 := by
  refine ⟨(c5_per_point_isolation fDemo 1).1, ?_⟩
  have h2 := ((c5_per_point_isolation fDemo 1).2 1 (by norm_num [hsList])
    (-1) (by norm_num)).1 (Or.inl (by norm_num [fDemo]))
  norm_num at h2
  exact h2

/-! ### C9 — dot product truncates to the shorter vector -/

/-- C9: `dot(u, v)` is total (it raises no error for any pair of
lengths) and returns the sum of products over only the first
`min(len(u), len(v))` components; extra components of the longer
vector are silently ignored. -/
theorem c9_dot_truncates (u v : List ℚ) :
    dot u v = ((List.range (min u.length v.length)).map
      fun i => u.getD i 0 * v.getD i 0).sum := by
  induction u generalizing v with
  | nil => simp [dot]
  | cons a u ih =>
    cases v with
    | nil => simp [dot]
    | cons b v =>
      simp only [dot, List.zip_cons_cons, List.map_cons, List.sum_cons]
      rw [show ((u.zip v).map fun p => p.1 * p.2).sum = dot u v from rfl, ih v,
        List.length_cons, List.length_cons, Nat.succ_min_succ,
        List.range_succ_eq_map]
      simp [List.map_map, Function.comp_def, List.getElem?_cons_succ]

/-! ### Facts about the real-valued vector operations -/

namespace VR

theorem sumSq_nonneg (v : List ℝ) : 0 ≤ sumSq v := by
  induction v with
  | nil => simp [sumSq]
  | cons a v ih =>
    simp only [sumSq, List.map_cons, List.sum_cons] at *
    exact add_nonneg (mul_self_nonneg a) ih

theorem sq_magnitude (v : List ℝ) : magnitude v ^ 2 = sumSq v :=
  Real.sq_sqrt (sumSq_nonneg v)

theorem sumSq_map_div (v : List ℝ) (m : ℝ) :
    sumSq (v.map fun x => x / m) = sumSq v / m ^ 2 := by
  induction v with
  | nil => simp [sumSq]
  | cons a v ih =>
    simp only [sumSq, List.map_cons, List.sum_cons] at *
    rw [ih]; ring

theorem sumSq_map_mul (k : ℝ) (v : List ℝ) :
    sumSq (v.map fun x => k * x) = k ^ 2 * sumSq v := by
  induction v with
  | nil => simp [sumSq]
  | cons a v ih =>
    simp only [sumSq, List.map_cons, List.sum_cons] at *
    rw [ih]; ring

theorem magnitude_map_mul (k : ℝ) (v : List ℝ) :
    magnitude (v.map fun x => k * x) = |k| * magnitude v := by
  rw [magnitude, sumSq_map_mul, Real.sqrt_mul (sq_nonneg k), Real.sqrt_sq_eq_abs,
    magnitude]

theorem dot_map_mul (k : ℝ) (u : List ℝ) :
    dot u (u.map fun x => k * x) = k * sumSq u := by
  induction u with
  | nil => simp [dot, sumSq]
  | cons a u ih =>
    simp only [dot, sumSq, List.map_cons, List.zip_cons_cons, List.sum_cons] at *
    rw [ih]; ring

end VR

theorem EPS10R_pos : (0 : ℝ) < EPS10R := by norm_num [EPS10R]

/-! ### C6 — unit vector -/

/-- C6: `unit(v)` raises (returns `none`) iff `magnitude(v) < 1e-10`;
for every `v` with magnitude at least that epsilon it returns
`v / magnitude(v)`, and the magnitude of the returned vector differs
from `1` by at most `1e-9` (in exact arithmetic it is exactly `1`). -/
theorem c6_unit (v : List ℝ) :
    ((VR.unit v = none) ↔ VR.magnitude v < EPS10R) ∧
    (EPS10R ≤ VR.magnitude v →
      VR.unit v = some (v.map fun x => x / VR.magnitude v) ∧
      ∀ w, VR.unit v = some w → |VR.magnitude w - 1| ≤ EPS9R) := by
  have hiff : (VR.unit v = none) ↔ VR.magnitude v < EPS10R := by
    rw [VR.unit]
    split_ifs with h
    · simp [h]
    · simp [h]
  refine ⟨hiff, fun hge => ?_⟩
  have hne : ¬ VR.magnitude v < EPS10R := not_lt.mpr hge
  have heq : VR.unit v = some (v.map fun x => x / VR.magnitude v) := by
    rw [VR.unit, if_neg hne]
  refine ⟨heq, fun w hw => ?_⟩
  rw [heq, Option.some_inj] at hw
  have hpos : 0 < VR.magnitude v := lt_of_lt_of_le EPS10R_pos hge
  have hone : VR.magnitude w = 1 := by
    rw [← hw, VR.magnitude, VR.sumSq_map_div, ← VR.sq_magnitude v,
      div_self (pow_ne_zero 2 (ne_of_gt hpos)), Real.sqrt_one]
  rw [hone]
  norm_num [EPS9R]

theorem c6_unit_witness :
    VR.unit [(3 : ℝ), 4] = some [3 / 5, 4 / 5] ∧
      ∀ w, VR.unit [(3 : ℝ), 4] = some w → |VR.magnitude w - 1| ≤ EPS9R := by
  have h5 : VR.magnitude [(3 : ℝ), 4] = 5 := by
    rw [VR.magnitude, show VR.sumSq [(3 : ℝ), 4] = 5 ^ 2 by norm_num [VR.sumSq],
      Real.sqrt_sq (by norm_num)]
  have h := (c6_unit [(3 : ℝ), 4]).2 (by rw [h5]; norm_num [EPS10R])
  refine ⟨?_, h.2⟩
  rw [h.1, h5]
  norm_num

/-! ### C7 — angle between vectors -/

/-- C7: `angle(u, v)` raises (returns `none`) exactly when either
magnitude is below `1e-10`; otherwise it returns a value in
`[0°, 180°]` (the cosine argument is clamped into `[-1, 1]` before
`acos`), which is `0°` when `v = k·u` with `k > 0` and `180°` when
`k < 0`. -/
theorem c7_angle (u v : List ℝ) :
    ((VR.angle u v = none) ↔
      (VR.magnitude u < EPS10R ∨ VR.magnitude v < EPS10R)) ∧
    (EPS10R ≤ VR.magnitude u → EPS10R ≤ VR.magnitude v →
      ∃ θ, VR.angle u v = some θ ∧ 0 ≤ θ ∧ θ ≤ 180) ∧
    (∀ k : ℝ, v = u.map (fun x => k * x) →
      EPS10R ≤ VR.magnitude u → EPS10R ≤ VR.magnitude v →
      (0 < k → VR.angle u v = some 0) ∧
      (k < 0 → VR.angle u v = some 180)) := by
  have hiff : (VR.angle u v = none) ↔
      (VR.magnitude u < EPS10R ∨ VR.magnitude v < EPS10R) := by
    rw [VR.angle]
    split_ifs with h
    · simp [h]
    · simp [h]
  have h180 : rad2deg Real.pi = 180 := by
    rw [rad2deg, mul_comm, mul_div_assoc, div_self Real.pi_ne_zero, mul_one]
  refine ⟨hiff, fun h1 h2 => ?_, fun k hv h1 h2 => ?_⟩
  · have hc : ¬ (VR.magnitude u < EPS10R ∨ VR.magnitude v < EPS10R) :=
      not_or.mpr ⟨not_lt.mpr h1, not_lt.mpr h2⟩
    rw [VR.angle, if_neg hc]
    refine ⟨_, rfl, ?_, ?_⟩
    · rw [rad2deg]
      exact div_nonneg (mul_nonneg (Real.arccos_nonneg _) (by norm_num))
        Real.pi_pos.le
    · rw [← h180, rad2deg, rad2deg,
        div_le_div_iff_of_pos_right Real.pi_pos]
      exact mul_le_mul_of_nonneg_right (Real.arccos_le_pi _) (by norm_num)
  · subst hv
    have hc : ¬ (VR.magnitude u < EPS10R ∨
        VR.magnitude (u.map fun x => k * x) < EPS10R) :=
      not_or.mpr ⟨not_lt.mpr h1, not_lt.mpr h2⟩
    have hmupos : 0 < VR.magnitude u := lt_of_lt_of_le EPS10R_pos h1
    have hs : VR.sumSq u = VR.magnitude u ^ 2 := (VR.sq_magnitude u).symm
    have hden : VR.magnitude u * VR.magnitude (u.map fun x => k * x) =
        |k| * VR.magnitude u ^ 2 := by
      rw [VR.magnitude_map_mul]; ring
    constructor
    · intro hk
      have hval : VR.dot u (u.map fun x => k * x) /
          (VR.magnitude u * VR.magnitude (u.map fun x => k * x)) = 1 := by
        rw [VR.dot_map_mul, hs, hden, abs_of_pos hk]
        exact div_self (by positivity)
      rw [VR.angle, if_neg hc, hval]
      norm_num [Real.arccos_one, rad2deg]
    · intro hk
      have hval : VR.dot u (u.map fun x => k * x) /
          (VR.magnitude u * VR.magnitude (u.map fun x => k * x)) = -1 := by
        rw [VR.dot_map_mul, hs, hden, abs_of_neg hk]
        rw [div_eq_iff (mul_ne_zero (neg_ne_zero.mpr (ne_of_lt hk))
          (pow_ne_zero 2 (ne_of_gt hmupos)))]
        ring
      rw [VR.angle, if_neg hc, hval]
      rw [show max (-1 : ℝ) (min 1 (-1)) = -1 by norm_num,
        Real.arccos_neg_one, h180]

theorem c7_angle_witness : VR.angle [(1 : ℝ), 0] [2, 0] = some 0 := by
  have h1 : VR.magnitude [(1 : ℝ), 0] = 1 := by
    rw [VR.magnitude, show VR.sumSq [(1 : ℝ), 0] = 1 by norm_num [VR.sumSq],
      Real.sqrt_one]
  have h2 : VR.magnitude [(2 : ℝ), 0] = 2 := by
    rw [VR.magnitude, show VR.sumSq [(2 : ℝ), 0] = 2 ^ 2 by norm_num [VR.sumSq],
      Real.sqrt_sq (by norm_num)]
  exact ((c7_angle [(1 : ℝ), 0] [2, 0]).2.2 2 (by norm_num)
    (by rw [h1]; norm_num [EPS10R]) (by rw [h2]; norm_num [EPS10R])).1
    (by norm_num)

/-! ### Facts about the line_master angle pipeline -/

theorem rad2deg_pi : rad2deg Real.pi = 180 := by
  rw [rad2deg, mul_comm, mul_div_assoc, div_self Real.pi_ne_zero, mul_one]

theorem rad2deg_zero : rad2deg 0 = 0 := by
  rw [rad2deg, zero_mul, zero_div]

theorem rad2deg_pi_div_two : rad2deg (Real.pi / 2) = 90 := by
  rw [rad2deg]
  field_simp
  ring

theorem atan2_zero_neg_one : LM.atan2 0 (-1) = Real.pi := by
  rw [LM.atan2]
  norm_num

theorem atan2_zero_one : LM.atan2 0 1 = 0 := by
  rw [LM.atan2]
  norm_num

theorem atan2_one_zero : LM.atan2 1 0 = Real.pi / 2 := by
  rw [LM.atan2]
  norm_num

theorem normalize_angle_eq_self (d : ℝ) (h1 : -180 ≤ d) (h2 : d < 180) :
    LM.normalize_angle d = d := by
  have hf : Int.floor ((d + 180) / 360) = 0 := by
    rw [Int.floor_eq_zero_iff, Set.mem_Ico]
    constructor
    · exact div_nonneg (by linarith) (by norm_num)
    · rw [div_lt_one (by norm_num)]
      linarith
  rw [LM.normalize_angle, hf]
  push_cast
  ring

theorem normalize_angle_at_180 : LM.normalize_angle 180 = -180 := by
  have hf : Int.floor (((180 : ℝ) + 180) / 360) = 1 := by
    rw [show ((180 : ℝ) + 180) / 360 = 1 by norm_num]
    exact Int.floor_one
  rw [LM.normalize_angle, hf]
  norm_num

/-! ### C3 — the angle normalization interval -/

/-- C3: the claim (and the docstring of `normalize_angle`) says every
derived angle lies in `(-180°, 180°]` with `-180°` unattainable and
`+180°` attainable.  The code does the opposite: for the line
`-x + 0·y + 0 = 0` the normal angle returned is exactly `-180°`, the
direction angle of the line `0·x + y + 0 = 0` is also `-180°`, and in
general `normalize_angle` maps every input into `[-180°, 180°)`, so
`+180°` is never returned. -/
theorem c3_angle_normalization :
    LM.alphaNormalDeg (-1) 0 = -180 ∧ LM.alphaLineDeg 0 1 = -180 ∧
      ∀ d : ℝ, -180 ≤ LM.normalize_angle d ∧ LM.normalize_angle d < 180 := by
  have hrange : ∀ d : ℝ, -180 ≤ LM.normalize_angle d ∧ LM.normalize_angle d < 180 := by
    intro d
    rw [LM.normalize_angle]
    constructor
    · have h := Int.sub_floor_div_mul_nonneg (d + 180) (show (0 : ℝ) < 360 by norm_num)
      linarith
    · have h := Int.sub_floor_div_mul_lt (d + 180) (show (0 : ℝ) < 360 by norm_num)
      linarith
  have hnd : LM.alphaNormalDeg (-1) 0 = -180 := by
    rw [LM.alphaNormalDeg, show ((-1 : ℝ) ^ 2 + 0 ^ 2) = 1 by norm_num,
      Real.sqrt_one, div_one, div_one, atan2_zero_neg_one, rad2deg_pi,
      normalize_angle_at_180]
  have hn01 : LM.alphaNormalDeg 0 1 = 90 := by
    rw [LM.alphaNormalDeg, show ((0 : ℝ) ^ 2 + 1 ^ 2) = 1 by norm_num,
      Real.sqrt_one, div_one, div_one, atan2_one_zero, rad2deg_pi_div_two]
    exact normalize_angle_eq_self 90 (by norm_num) (by norm_num)
  refine ⟨hnd, ?_, hrange⟩
  rw [LM.alphaLineDeg, hn01, show (90 : ℝ) + 90 = 180 by norm_num,
    normalize_angle_at_180]

/-! ### C8 — normal-form round trip -/

/-- C8: `case_normal_form` fails (returns `none`) iff `p < 0`; for
every `p ≥ 0` and angle `α` it yields the coefficients
`(cos α, sin α, -p)`, reading the distance-from-origin back from those
coefficients returns exactly `p`, and for the concrete coefficients of
`(p = 5, α = 0°)` — namely `(1, 0, -5)` — the derived normal angle is
`0°`. -/
theorem c8_normal_form (p alpha : ℝ) :
    ((LM.case_normal_form p alpha = none) ↔ p < 0) ∧
    (0 ≤ p → LM.case_normal_form p alpha =
        some (Real.cos (deg2rad alpha), Real.sin (deg2rad alpha), -p) ∧
      LM.distance_from_origin (Real.cos (deg2rad alpha))
        (Real.sin (deg2rad alpha)) (-p) = p) ∧
    LM.alphaNormalDeg (Real.cos (deg2rad 0)) (Real.sin (deg2rad 0)) = 0 := by
  have hdeg0 : deg2rad 0 = 0 := by rw [deg2rad]; ring
  refine ⟨?_, fun hp => ⟨?_, ?_⟩, ?_⟩
  · rw [LM.case_normal_form]
    split_ifs with h
    · simp [h]
    · simp [h]
  · rw [LM.case_normal_form, if_neg (not_lt.mpr hp)]
  · rw [LM.distance_from_origin, Real.cos_sq_add_sin_sq, Real.sqrt_one,
      div_one, neg_neg, abs_of_nonneg hp]
  · rw [hdeg0, Real.cos_zero, Real.sin_zero, LM.alphaNormalDeg,
      show ((1 : ℝ) ^ 2 + 0 ^ 2) = 1 by norm_num, Real.sqrt_one, div_one,
      div_one, atan2_zero_one, rad2deg_zero]
    exact normalize_angle_eq_self 0 (by norm_num) (by norm_num)

theorem c8_normal_form_witness :
    LM.case_normal_form 5 0 = some (1, 0, -5) ∧
      LM.distance_from_origin 1 0 (-5) = 5 ∧
      LM.alphaNormalDeg 1 0 = 0 := by
  have hdeg0 : deg2rad 0 = 0 := by rw [deg2rad]; ring
  have h := c8_normal_form 5 0
  have h2 := h.2.1 (by norm_num)
  have h3 := h.2.2
  rw [hdeg0, Real.cos_zero, Real.sin_zero] at h2 h3
  exact ⟨h2.1, h2.2, h3⟩

/-! ### C10 — foot of the perpendicular in the triangle height -/

/-- C10: for every triple of points with `distance(A,B) ≥ 1e-10`,
`height_from_C_to_AB` succeeds and returns a pair `(h, H)` where the
foot `H` is `A + t·(B−A)` with `t = (AC·AB)/|AB|²`, the segment `C−H`
is orthogonal to `B−A` (their dot product is `0`), and the returned
height `h` equals `distance(C, H)`. -/
theorem c10_height_foot (A B C : ℝ × ℝ) (hAB : EPS10R ≤ TH.distance A B) :
    ∃ h H, TH.height_from_C_to_AB A B C = some (h, H) ∧
      H = TH.point_on_line A B
        (TH.dot_product (TH.vector A C) (TH.vector A B) /
          ((TH.vector A B).1 ^ 2 + (TH.vector A B).2 ^ 2)) ∧
      TH.dot_product (TH.vector H C) (TH.vector A B) = 0 ∧
      h = TH.distance C H := by
  have hne : ¬ TH.distance A B < EPS10R := not_lt.mpr hAB
  have hsqrt_pos : 0 < TH.distance A B := lt_of_lt_of_le EPS10R_pos hAB
  have hs_pos : 0 < (B.1 - A.1) ^ 2 + (B.2 - A.2) ^ 2 := by
    rw [TH.distance] at hsqrt_pos
    exact Real.sqrt_pos.mp hsqrt_pos
  refine ⟨|TH.cross_product (TH.vector A B) (TH.vector A C)| / TH.distance A B,
    TH.point_on_line A B (TH.dot_product (TH.vector A C) (TH.vector A B) /
      ((TH.vector A B).1 ^ 2 + (TH.vector A B).2 ^ 2)), ?_, rfl, ?_, ?_⟩
  · simp only [TH.height_from_C_to_AB, if_neg hne]
  · simp only [TH.point_on_line, TH.vector, TH.dot_product]
    field_simp
    ring
  · have hkey : ((TH.point_on_line A B (TH.dot_product (TH.vector A C)
          (TH.vector A B) / ((TH.vector A B).1 ^ 2 + (TH.vector A B).2 ^ 2))).1
          - C.1) ^ 2 +
        ((TH.point_on_line A B (TH.dot_product (TH.vector A C)
          (TH.vector A B) / ((TH.vector A B).1 ^ 2 + (TH.vector A B).2 ^ 2))).2
          - C.2) ^ 2 =
        TH.cross_product (TH.vector A B) (TH.vector A C) ^ 2 /
          ((B.1 - A.1) ^ 2 + (B.2 - A.2) ^ 2) := by
      simp only [TH.point_on_line, TH.vector, TH.dot_product, TH.cross_product]
      field_simp
      ring
    rw [TH.distance, TH.distance, hkey, Real.sqrt_div (sq_nonneg _),
      Real.sqrt_sq_eq_abs]

theorem c10_height_foot_witness :
    EPS10R ≤ TH.distance (0, 0) (4, 0) ∧
      ∃ h H, TH.height_from_C_to_AB (0, 0) (4, 0) (1, 3) = some (h, H) ∧
        TH.dot_product (TH.vector H (1, 3)) (TH.vector (0, 0) (4, 0)) = 0 ∧
        h = TH.distance (1, 3) H := by
  have hd : TH.distance ((0 : ℝ), 0) (4, 0) = 4 := by
    rw [TH.distance, show ((4 : ℝ), (0 : ℝ)).1 - ((0 : ℝ), (0 : ℝ)).1 = 4 by norm_num,
      show ((4 : ℝ), (0 : ℝ)).2 - ((0 : ℝ), (0 : ℝ)).2 = 0 by norm_num,
      show (4 : ℝ) ^ 2 + 0 ^ 2 = 4 ^ 2 by norm_num, Real.sqrt_sq (by norm_num)]
  have hle : EPS10R ≤ TH.distance ((0 : ℝ), 0) (4, 0) := by
    rw [hd]; norm_num [EPS10R]
  obtain ⟨h, H, h1, _, h3, h4⟩ := c10_height_foot (0, 0) (4, 0) (1, 3) hle
  exact ⟨hle, h, H, h1, h3, h4⟩

end LineGeo
